import Mathlib

/-!
Shallow embedding of `src/queue.c` (lab0-c queue): a singly-linked-list
queue with head/tail insertion, head removal, in-place reversal and
merge sort by case-insensitive lexicographic comparison of the payload
strings.

Modelling conventions:
* A node (`list_ele_t`) is identified by its address (`addr : Nat`, the
  malloc'd pointer) and carries its owned payload `value`, the bytes of
  the stored NUL-terminated C string without the terminator.
* A queue's reachable chain (the nodes found from `head` following
  `next` until NULL) is a Lean list `chain`; `head` is `chain.head?`
  and node `i`'s `next` points to node `i + 1`. The `tail` field holds
  the address the C `tail` pointer holds (`none` for NULL) and `size`
  the C `int` size field.
* A NULL queue pointer is `none : Option queue_t`.
* `malloc` failure is an oracle parameter `alloc_ok`, and the address
  returned for a fresh node is a parameter `addr`.
* Machine integers: `size_t` arithmetic is `Nat` reduced mod `2 ^ 64`
  where the C code can wrap (`bufsize - 1` in `q_remove_head`).
-/

namespace Lab0

/-- Node of the queue, `list_ele_t` of queue.h: `addr` is the node's own
address (its identity as a C object), `value` the owned string copy. The
`next` field is represented by adjacency in the queue's `chain`. -/
structure list_ele_t where
  addr : Nat
  value : List Nat
deriving DecidableEq

/-- The queue header `queue_t`: `chain` is the list of nodes reachable from
the `head` pointer following `next` (so `head` is `chain.head?`, and the
acyclic NUL-terminated shape of a reachable chain is part of the
representation); `tail` is the address held by the `tail` pointer field;
`size` is the `int` size field. -/
structure queue_t where
  chain : List list_ele_t
  tail : Option Nat
  size : Int
deriving DecidableEq

/-- ASCII `tolower`, applied to each byte by `strcasecmp`. -/
def to_lower (b : Nat) : Nat := if 65 ≤ b ∧ b ≤ 90 then b + 32 else b

/-- C `strcasecmp` on the byte lists of two C strings (the end of a list is
the NUL terminator, which compares as byte 0): the difference of the first
pair of lowered bytes that differ, 0 if the strings are case-insensitively
equal. Faithful to the C function for lists without interior 0 bytes, which
is what a C string is. -/
def strcasecmp : List Nat → List Nat → Int
  | [], [] => 0
  | [], b :: _ => -(to_lower b : Int)
  | a :: _, [] => (to_lower a : Int)
  | a :: as, b :: bs =>
    if to_lower a = to_lower b then strcasecmp as bs
    else (to_lower a : Int) - (to_lower b : Int)

/-- A byte list is the content of a C string: no interior NUL byte. -/
def c_str (s : List Nat) : Prop := ∀ b ∈ s, b ≠ 0

instance (s : List Nat) : Decidable (c_str s) :=
  inferInstanceAs (Decidable (∀ b ∈ s, b ≠ 0))

/-- The comparison `merge` performs on two nodes: the test
`strcasecmp(left->value, right->value) < 1` of queue.c, i.e. left not
greater than right. -/
def node_le (a b : list_ele_t) : Prop := strcasecmp a.value b.value < 1

instance (a b : list_ele_t) : Decidable (node_le a b) :=
  inferInstanceAs (Decidable (strcasecmp a.value b.value < 1))

/-- The `merge` function of queue.c: merge two chains, repeatedly moving the
front node whose value compares `< 1` (the left one on a tie) to the result;
when one side runs out the other is spliced on wholesale. -/
def merge : List list_ele_t → List list_ele_t → List list_ele_t
  | [], right => right
  | left, [] => left
  | l :: ls, r :: rs =>
    if strcasecmp l.value r.value < 1 then l :: merge ls (r :: rs)
    else r :: merge (l :: ls) rs
termination_by l r => l.length + r.length
decreasing_by
  all_goals simp

/-- Number of iterations of the fast/slow loop in `merge_sort` as a function
of the list the `fast` pointer starts on (`head->next`): the loop runs while
`fast && fast->next` and advances `fast` two nodes per iteration. `slow`
starts at `head` and advances one node per iteration, so the left part of
the split is the first `fast_slow_steps l.tail + 1` nodes of `l`. -/
def fast_slow_steps : List list_ele_t → Nat
  | [] => 0
  | [_] => 0
  | _ :: _ :: rest => fast_slow_steps rest + 1

theorem fast_slow_steps_lt : ∀ l : List list_ele_t, l ≠ [] → fast_slow_steps l < l.length
  | [_], _ => by simp [fast_slow_steps]
  | a :: b :: rest, _ => by
    cases rest with
    | nil => simp [fast_slow_steps]
    | cons c cs =>
      have h := fast_slow_steps_lt (c :: cs) (by simp)
      simp only [fast_slow_steps, List.length_cons] at *
      omega

/-- The `merge_sort` function of queue.c: split the chain at the node the
slow pointer stops on, sort the two parts recursively, merge them. -/
def merge_sort : List list_ele_t → List list_ele_t
  | [] => []
  | [n] => [n]
  | n1 :: n2 :: rest =>
    merge (merge_sort ((n1 :: n2 :: rest).take (fast_slow_steps (n2 :: rest) + 1)))
      (merge_sort ((n1 :: n2 :: rest).drop (fast_slow_steps (n2 :: rest) + 1)))
termination_by l => l.length
decreasing_by
  · rename_i n1 n2
    have h := fast_slow_steps_lt (n2 :: rest) (by simp)
    simp only [List.length_take, List.length_cons] at *
    omega
  · simp only [List.length_drop, List.length_cons]
    omega

/-- The `q_allocate_node` function of queue.c: NULL (`none`) when `s` is
NULL, when `s` is the empty string, or when `malloc` fails (the oracle
`alloc_ok` is false); otherwise a fresh node at address `addr` holding a
private copy of `s`, with `next = NULL`. -/
def q_allocate_node (s : Option (List Nat)) (alloc_ok : Bool) (addr : Nat) :
    Option list_ele_t :=
  match s with
  | none => none
  | some bytes =>
    if bytes.length = 0 then none
    else if alloc_ok then some ⟨addr, bytes⟩ else none

/-- The `q_insert_head` function of queue.c: returns the C result together
with the queue after the call (`none` stays the NULL pointer). On success
the new node is linked in front of the old head, the tail pointer is set to
the node when it was NULL, and `size` is incremented. -/
def q_insert_head (q : Option queue_t) (s : Option (List Nat))
    (alloc_ok : Bool) (addr : Nat) : Bool × Option queue_t :=
  match q with
  | none => (false, none)
  | some q =>
    match q_allocate_node s alloc_ok addr with
    | none => (false, some q)
    | some node =>
      (true, some { chain := node :: q.chain,
                    tail := if q.tail = none then some node.addr else q.tail,
                    size := q.size + 1 })

/-- The `q_insert_tail` function of queue.c: on success the new node becomes
the head when the chain was empty and is otherwise linked after the old tail
(`q->tail->next = node`, expressed on the reachable chain as appending the
node — the two coincide on every state whose tail pointer is the last
reachable node), the tail pointer is set to the node, `size` incremented. -/
def q_insert_tail (q : Option queue_t) (s : Option (List Nat))
    (alloc_ok : Bool) (addr : Nat) : Bool × Option queue_t :=
  match q with
  | none => (false, none)
  | some q =>
    match q_allocate_node s alloc_ok addr with
    | none => (false, some q)
    | some node =>
      (true, some { chain := if q.chain.isEmpty then [node] else q.chain ++ [node],
                    tail := some node.addr,
                    size := q.size + 1 })

/-- Width of `size_t` on the target (64-bit). -/
def size_t_mod : Nat := 2 ^ 64

/-- Value of the C expression `bufsize - 1` at type `size_t`: wrap-around
subtraction (for `bufsize = 0` this is `2 ^ 64 - 1`). -/
def bufsize_minus_one (bufsize : Nat) : Nat :=
  (bufsize + (size_t_mod - 1)) % size_t_mod

/-- The `n` bytes `strncpy(dst, src, n)` stores: the first `min src.length n`
bytes of `src`, padded with NUL bytes up to length `n`. -/
def strncpy_bytes (src : List Nat) (n : Nat) : List Nat :=
  src.take n ++ List.replicate (n - src.length) 0

/-- The bytes `q_remove_head` writes through `sp` when `sp` is non-NULL:
`strncpy(sp, head->value, bufsize - 1)` followed by
`sp[bufsize - 1] = '\x00'`, with `bufsize - 1` computed in `size_t`. -/
def copy_out (value : List Nat) (bufsize : Nat) : List Nat :=
  strncpy_bytes value (bufsize_minus_one bufsize) ++ [0]

/-- The `q_remove_head` function of queue.c: returns the C result, the queue
after the call, and the bytes written through `sp` (`none` when `sp` is NULL
or nothing was removed). The head node is unlinked, the tail pointer is
reset to NULL when it pointed at the removed node (`q->tail == head`,
pointer comparison modelled on addresses), and `size` is decremented. -/
def q_remove_head (q : Option queue_t) (sp : Bool) (bufsize : Nat) :
    Bool × Option queue_t × Option (List Nat) :=
  match q with
  | none => (false, none, none)
  | some q =>
    match q.chain with
    | [] => (false, some q, none)
    | h :: rest =>
      (true,
       some { chain := rest,
              tail := if q.tail = some h.addr then none else q.tail,
              size := q.size - 1 },
       if sp then some (copy_out h.value bufsize) else none)

/-- The `q_size` function of queue.c. -/
def q_size (q : Option queue_t) : Int :=
  match q with
  | none => 0
  | some q => q.size

/-- The three-pointer loop of `q_reverse`: `prev` accumulates the already
re-linked reversed prefix, the first argument is the rest of the original
chain (`cur` onwards). -/
def reverse_loop : List list_ele_t → List list_ele_t → List list_ele_t
  | [], prev => prev
  | c :: rest, prev => reverse_loop rest (c :: prev)

/-- Body of `q_reverse` on a non-NULL queue: no-op when the chain is empty;
otherwise the tail pointer is set to the old head and every link is turned
around by the loop, after which `head` is the old last node. -/
def q_reverse_body (q : queue_t) : queue_t :=
  match q.chain with
  | [] => q
  | h :: rest =>
    { chain := reverse_loop (h :: rest) [],
      tail := some h.addr,
      size := q.size }

/-- The `q_reverse` function of queue.c (NULL check included). -/
def q_reverse (q : Option queue_t) : Option queue_t := q.map q_reverse_body

/-- Body of `q_sort` on a non-NULL queue: no-op when the chain is empty or
when `q->head == q->tail` (pointer comparison, modelled on the address the
tail field holds); otherwise the chain is replaced by `merge_sort` of it and
the tail pointer is recomputed by walking to the last node. -/
def q_sort_body (q : queue_t) : queue_t :=
  match q.chain with
  | [] => q
  | h :: rest =>
    if q.tail = some h.addr then q
    else
      { chain := merge_sort (h :: rest),
        tail := ((merge_sort (h :: rest)).getLast?).map list_ele_t.addr,
        size := q.size }

/-- The `q_sort` function of queue.c (NULL check included). -/
def q_sort (q : Option queue_t) : Option queue_t := q.map q_sort_body

/-- Structural well-formedness of a queue state, as [3 DATA MODEL] states
it: the size field counts the reachable nodes, the tail pointer holds the
address of the last reachable node (NULL on an empty chain, making
`size == 0` iff `head == none` iff `tail == none`), and the nodes are
pairwise distinct C objects (distinct addresses — the chain is a simple
acyclic sequence). -/
def inv (q : queue_t) : Prop :=
  q.size = q.chain.length ∧
  q.tail = (q.chain.getLast?).map list_ele_t.addr ∧
  (q.chain.map list_ele_t.addr).Nodup

instance (q : queue_t) : Decidable (inv q) :=
  inferInstanceAs (Decidable (_ ∧ _ ∧ _))

/-- `inv` lifted to a possibly-NULL queue. -/
def inv_opt : Option queue_t → Prop
  | none => True
  | some q => inv q

/-- Every payload stored in the queue is a C string (no interior NUL). -/
def values_c_str (q : queue_t) : Prop := ∀ n ∈ q.chain, c_str n.value

instance (q : queue_t) : Decidable (values_c_str q) :=
  inferInstanceAs (Decidable (∀ n ∈ q.chain, c_str n.value))

theorem c_str_tail {x : Nat} {xs : List Nat} (h : c_str (x :: xs)) : c_str xs :=
  fun b hb => h b (List.mem_cons_of_mem _ hb)

theorem to_lower_pos {b : Nat} (hb : b ≠ 0) : 0 < to_lower b := by
  unfold to_lower; split <;> omega

theorem strcasecmp_self : ∀ s, strcasecmp s s = 0
  | [] => rfl
  | a :: as => by simp [strcasecmp, strcasecmp_self as]

theorem strcasecmp_antisymm (a b : List Nat) : strcasecmp a b = -strcasecmp b a := by
  induction a, b using strcasecmp.induct with
  | case1 => simp [strcasecmp]
  | case2 b bs => simp [strcasecmp]
  | case3 a as => simp [strcasecmp]
  | case4 a as b bs h ih =>
    rw [strcasecmp, strcasecmp, if_pos h, if_pos h.symm, ih]
  | case5 a as b bs h =>
    rw [strcasecmp, strcasecmp, if_neg h, if_neg (Ne.symm h)]
    omega

theorem strcasecmp_trans :
    ∀ a b c : List Nat, c_str a → c_str b →
      strcasecmp a b ≤ 0 → strcasecmp b c ≤ 0 → strcasecmp a c ≤ 0
  | [], _, c, _, _, _, _ => by
    cases c <;> simp [strcasecmp]
  | a :: as, [], c, ha, _, h1, _ => by
    exfalso
    have := to_lower_pos (ha a (List.mem_cons_self a as))
    simp [strcasecmp] at h1
    omega
  | a :: as, b :: bs, [], _, hb, _, h2 => by
    exfalso
    have := to_lower_pos (hb b (List.mem_cons_self b bs))
    simp [strcasecmp] at h2
    omega
  | a :: as, b :: bs, c :: cs, ha, hb, h1, h2 => by
    simp only [strcasecmp] at h1 h2 ⊢
    by_cases hab : to_lower a = to_lower b
    · by_cases hbc : to_lower b = to_lower c
      · have hac : to_lower a = to_lower c := hab.trans hbc
        rw [if_pos hab] at h1
        rw [if_pos hbc] at h2
        rw [if_pos hac]
        exact strcasecmp_trans as bs cs (c_str_tail ha) (c_str_tail hb) h1 h2
      · have hac : ¬to_lower a = to_lower c := by rw [hab]; exact hbc
        rw [if_neg hbc] at h2
        rw [if_neg hac]
        omega
    · rw [if_neg hab] at h1
      by_cases hbc : to_lower b = to_lower c
      · have hac : ¬to_lower a = to_lower c := fun h => hab (h.trans hbc.symm)
        rw [if_neg hac]
        omega
      · rw [if_neg hbc] at h2
        by_cases hac : to_lower a = to_lower c
        · exfalso; omega
        · rw [if_neg hac]; omega

theorem node_le_refl (a : list_ele_t) : node_le a a := by
  unfold node_le; rw [strcasecmp_self]; omega

theorem node_le_total {a b : list_ele_t} (h : ¬node_le a b) : node_le b a := by
  unfold node_le at *
  have := strcasecmp_antisymm a.value b.value
  omega

theorem node_le_trans {a b c : list_ele_t} (ha : c_str a.value) (hb : c_str b.value)
    (h1 : node_le a b) (h2 : node_le b c) : node_le a c := by
  unfold node_le at *
  have := strcasecmp_trans a.value b.value c.value ha hb (by omega) (by omega)
  omega

theorem merge_nil_right : ∀ l : List list_ele_t, merge l [] = l
  | [] => by simp [merge]
  | _ :: _ => by simp [merge]

theorem merge_perm : ∀ l r : List list_ele_t, (merge l r).Perm (l ++ r) := by
  intro l r
  induction l, r using merge.induct with
  | case1 right => simp [merge]
  | case2 left h => simp [merge_nil_right]
  | case3 l ls r rs hc ih =>
    rw [show merge (l :: ls) (r :: rs) = l :: merge ls (r :: rs) from by
      simp [merge, hc]]
    exact ih.cons l
  | case4 l ls r rs hc ih =>
    rw [show merge (l :: ls) (r :: rs) = r :: merge (l :: ls) rs from by
      simp [merge, hc]]
    exact (ih.cons r).trans List.perm_middle.symm

theorem merge_head_le {x : list_ele_t} :
    ∀ l r : List list_ele_t, (∀ h ∈ l.head?, node_le x h) →
      (∀ h ∈ r.head?, node_le x h) → ∀ h ∈ (merge l r).head?, node_le x h := by
  intro l r hl hr
  match l, r with
  | [], r => simpa [merge] using hr
  | l :: ls, [] => simpa [merge_nil_right] using hl
  | l :: ls, r :: rs =>
    by_cases hc : strcasecmp l.value r.value < 1
    · rw [show merge (l :: ls) (r :: rs) = l :: merge ls (r :: rs) from by
        simp [merge, hc]]
      simpa using hl l (by simp)
    · rw [show merge (l :: ls) (r :: rs) = r :: merge (l :: ls) rs from by
        simp [merge, hc]]
      simpa using hr r (by simp)

theorem merge_chain' : ∀ l r : List list_ele_t,
    List.Chain' node_le l → List.Chain' node_le r →
      List.Chain' node_le (merge l r) := by
  intro l r hl hr
  induction l, r using merge.induct with
  | case1 right => simpa [merge]
  | case2 left h => simpa [merge_nil_right]
  | case3 l ls r rs hc ih =>
    rw [show merge (l :: ls) (r :: rs) = l :: merge ls (r :: rs) from by
      simp [merge, hc]]
    refine List.chain'_cons'.mpr ⟨?_, ih hl.tail hr⟩
    refine merge_head_le ls (r :: rs) ?_ ?_
    · exact (List.chain'_cons'.mp hl).1
    · intro h hh
      simp only [List.head?_cons, Option.mem_def, Option.some.injEq] at hh
      exact hh ▸ hc
  | case4 l ls r rs hc ih =>
    rw [show merge (l :: ls) (r :: rs) = r :: merge (l :: ls) rs from by
      simp [merge, hc]]
    refine List.chain'_cons'.mpr ⟨?_, ih hl hr.tail⟩
    refine merge_head_le (l :: ls) rs ?_ ?_
    · intro h hh
      simp only [List.head?_cons, Option.mem_def, Option.some.injEq] at hh
      exact hh ▸ node_le_total hc
    · exact (List.chain'_cons'.mp hr).1

theorem merge_sort_perm : ∀ l : List list_ele_t, (merge_sort l).Perm l := by
  intro l
  induction l using merge_sort.induct with
  | case1 => simp [merge_sort]
  | case2 n => simp [merge_sort]
  | case3 n1 n2 rest ih1 ih2 =>
    rw [show merge_sort (n1 :: n2 :: rest) =
        merge (merge_sort ((n1 :: n2 :: rest).take (fast_slow_steps (n2 :: rest) + 1)))
          (merge_sort ((n1 :: n2 :: rest).drop (fast_slow_steps (n2 :: rest) + 1))) from by
      rw [merge_sort]]
    refine ((merge_perm _ _).trans ((ih1.append ih2).trans ?_))
    rw [List.take_append_drop]

theorem merge_sort_chain' : ∀ l : List list_ele_t,
    List.Chain' node_le (merge_sort l) := by
  intro l
  induction l using merge_sort.induct with
  | case1 => simp [merge_sort]
  | case2 n => simp [merge_sort]
  | case3 n1 n2 rest ih1 ih2 =>
    rw [show merge_sort (n1 :: n2 :: rest) =
        merge (merge_sort ((n1 :: n2 :: rest).take (fast_slow_steps (n2 :: rest) + 1)))
          (merge_sort ((n1 :: n2 :: rest).drop (fast_slow_steps (n2 :: rest) + 1))) from by
      rw [merge_sort]]
    exact merge_chain' _ _ ih1 ih2

theorem merge_cons_le {l r : list_ele_t} {ls rs : List list_ele_t}
    (hc : strcasecmp l.value r.value < 1) :
    merge (l :: ls) (r :: rs) = l :: merge ls (r :: rs) := by
  simp [merge, hc]

theorem merge_cons_gt {l r : list_ele_t} {ls rs : List list_ele_t}
    (hc : ¬strcasecmp l.value r.value < 1) :
    merge (l :: ls) (r :: rs) = r :: merge (l :: ls) rs := by
  simp [merge, hc]

theorem merge_sort_cons_cons (n1 n2 : list_ele_t) (rest : List list_ele_t) :
    merge_sort (n1 :: n2 :: rest) =
      merge (merge_sort ((n1 :: n2 :: rest).take (fast_slow_steps (n2 :: rest) + 1)))
        (merge_sort ((n1 :: n2 :: rest).drop (fast_slow_steps (n2 :: rest) + 1))) := by
  rw [merge_sort]

theorem chain'_pairwise : ∀ l : List list_ele_t, (∀ n ∈ l, c_str n.value) →
    List.Chain' node_le l → l.Pairwise node_le := by
  intro l
  induction l with
  | nil => simp
  | cons a t ih =>
    intro hc hchain
    have ht := ih (fun n hn => hc n (List.mem_cons_of_mem _ hn)) hchain.tail
    refine List.pairwise_cons.mpr ⟨?_, ht⟩
    intro y hy
    cases t with
    | nil => simp at hy
    | cons b t' =>
      have hab : node_le a b := (List.chain'_cons'.mp hchain).1 b rfl
      rcases List.mem_cons.mp hy with h | h
      · exact h ▸ hab
      · have hby : node_le b y := (List.pairwise_cons.mp ht).1 y h
        exact node_le_trans (hc a (List.mem_cons_self a _))
          (hc b (List.mem_cons_of_mem _ (List.mem_cons_self b _))) hab hby

theorem merge_sort_pairwise (l : List list_ele_t) (hc : ∀ n ∈ l, c_str n.value) :
    (merge_sort l).Pairwise node_le :=
  chain'_pairwise _ (fun n hn => hc n ((merge_sort_perm l).subset hn))
    (merge_sort_chain' l)

/-- Membership test for the case-insensitive equivalence class of the value
`K`, used to state the stability of the sort. -/
def same_key (K : List Nat) (n : list_ele_t) : Bool := strcasecmp n.value K == 0

theorem merge_filter (K : List Nat) (hK : c_str K) :
    ∀ l r : List list_ele_t, (∀ n ∈ l, c_str n.value) →
      l.Pairwise node_le →
      (merge l r).filter (same_key K) =
        l.filter (same_key K) ++ r.filter (same_key K) := by
  intro l r hl hp
  induction l, r using merge.induct with
  | case1 right => simp [merge]
  | case2 left h => simp [merge_nil_right]
  | case3 l ls r rs hc ih =>
    rw [merge_cons_le hc, List.filter_cons, List.filter_cons,
      ih (fun n hn => hl n (List.mem_cons_of_mem _ hn)) hp.of_cons]
    cases same_key K l <;> simp
  | case4 l ls r rs hc ih =>
    rw [merge_cons_gt hc]
    rcases hkr : same_key K r with _ | _
    · have h1 : List.filter (same_key K) (r :: merge (l :: ls) rs) =
          List.filter (same_key K) (merge (l :: ls) rs) := by
        simp [List.filter_cons, hkr]
      have h2 : List.filter (same_key K) (r :: rs) =
          List.filter (same_key K) rs := by
        simp [List.filter_cons, hkr]
      rw [h1, h2]
      exact ih hl hp
    · have h1 : List.filter (same_key K) (r :: merge (l :: ls) rs) =
          r :: List.filter (same_key K) (merge (l :: ls) rs) := by
        simp [List.filter_cons, hkr]
      have h2 : List.filter (same_key K) (r :: rs) =
          r :: List.filter (same_key K) rs := by
        simp [List.filter_cons, hkr]
      have hrK : strcasecmp r.value K = 0 := by
        simpa [same_key] using hkr
      have hnone : ∀ x ∈ l :: ls, ¬(same_key K x = true) := by
        intro x hx hxK
        have hxK' : strcasecmp x.value K = 0 := by simpa [same_key] using hxK
        have hlx : node_le l x := by
          rcases List.mem_cons.mp hx with h | h
          · exact h ▸ node_le_refl l
          · exact (List.pairwise_cons.mp hp).1 x h
        have hlK : strcasecmp l.value K ≤ 0 :=
          strcasecmp_trans l.value x.value K (hl l (List.mem_cons_self l _))
            (hl x hx) (by unfold node_le at hlx; omega) (by omega)
        have hKr : strcasecmp K r.value = 0 := by
          rw [strcasecmp_antisymm, hrK]; rfl
        have hlr : strcasecmp l.value r.value ≤ 0 :=
          strcasecmp_trans l.value K r.value (hl l (List.mem_cons_self l _)) hK
            hlK (by omega)
        exact hc (by omega)
      rw [h1, h2, ih hl hp, List.filter_eq_nil_iff.mpr hnone]
      simp

theorem merge_sort_filter (K : List Nat) (hK : c_str K) :
    ∀ l : List list_ele_t, (∀ n ∈ l, c_str n.value) →
      (merge_sort l).filter (same_key K) = l.filter (same_key K) := by
  intro l
  induction l using merge_sort.induct with
  | case1 => simp [merge_sort]
  | case2 n => simp [merge_sort]
  | case3 n1 n2 rest ih1 ih2 =>
    intro hc
    have hLmem : ∀ n ∈ (n1 :: n2 :: rest).take (fast_slow_steps (n2 :: rest) + 1),
        c_str n.value := fun n hn => hc n (List.take_subset _ _ hn)
    have hRmem : ∀ n ∈ (n1 :: n2 :: rest).drop (fast_slow_steps (n2 :: rest) + 1),
        c_str n.value := fun n hn => hc n (List.drop_subset _ _ hn)
    have hLms : ∀ n ∈ merge_sort ((n1 :: n2 :: rest).take (fast_slow_steps (n2 :: rest) + 1)),
        c_str n.value := fun n hn => hLmem n ((merge_sort_perm _).subset hn)
    rw [merge_sort_cons_cons,
      merge_filter K hK _ _ hLms (merge_sort_pairwise _ hLmem),
      ih1 hLmem, ih2 hRmem, ← List.filter_append, List.take_append_drop]

theorem merge_eq_append : ∀ l r : List list_ele_t,
    (l ++ r).Pairwise node_le → merge l r = l ++ r := by
  intro l r
  induction l, r using merge.induct with
  | case1 right => simp [merge]
  | case2 left h => simp [merge_nil_right]
  | case3 l ls r rs hc ih =>
    intro hp
    rw [List.cons_append] at hp
    rw [merge_cons_le hc, ih hp.of_cons]
    simp
  | case4 l ls r rs hc ih =>
    intro hp
    exfalso
    rw [List.cons_append] at hp
    exact hc ((List.pairwise_cons.mp hp).1 r (by simp))

theorem merge_sort_eq_self : ∀ l : List list_ele_t,
    l.Pairwise node_le → merge_sort l = l := by
  intro l
  induction l using merge_sort.induct with
  | case1 => intro _; simp [merge_sort]
  | case2 n => intro _; simp [merge_sort]
  | case3 n1 n2 rest ih1 ih2 =>
    intro hp
    rw [merge_sort_cons_cons,
      ih1 (hp.sublist (List.take_sublist _ _)),
      ih2 (hp.sublist (List.drop_sublist _ _)),
      merge_eq_append _ _ (by rw [List.take_append_drop]; exact hp),
      List.take_append_drop]

theorem inv_tail_ne_head {q : queue_t} (h : inv q) {n r0 : list_ele_t}
    {rs : List list_ele_t} (hc : q.chain = n :: r0 :: rs) :
    q.tail ≠ some n.addr := by
  intro ht
  have hlast : (r0 :: rs).getLast? = some ((r0 :: rs).getLast (by simp)) :=
    List.getLast?_eq_getLast _ _
  have htail : q.tail = some ((r0 :: rs).getLast (by simp)).addr := by
    rw [h.2.1, hc, List.getLast?_cons_cons, hlast]
    rfl
  have haddr : n.addr = ((r0 :: rs).getLast (by simp)).addr := by
    rw [ht] at htail
    exact Option.some.inj htail
  have hnd := h.2.2
  rw [hc] at hnd
  have hmem : ((r0 :: rs).getLast (by simp)).addr ∈ (r0 :: rs).map list_ele_t.addr :=
    List.mem_map_of_mem _ (List.getLast_mem _)
  rw [List.map_cons, List.nodup_cons] at hnd
  exact hnd.1 (haddr ▸ hmem)

theorem q_sort_body_of_small {q : queue_t} (h : inv q)
    (hlen : q.chain.length ≤ 1) : q_sort_body q = q := by
  rcases hc : q.chain with _ | ⟨n, rest⟩
  · simp [q_sort_body, hc]
  · have hrest : rest = [] := by
      rw [hc] at hlen
      simpa using hlen
    subst hrest
    have ht : q.tail = some n.addr := by
      rw [h.2.1, hc]
      rfl
    simp [q_sort_body, hc, ht]

theorem q_sort_body_of_big {q : queue_t} (h : inv q)
    (hlen : 2 ≤ q.chain.length) :
    q_sort_body q = ⟨merge_sort q.chain,
      ((merge_sort q.chain).getLast?).map list_ele_t.addr, q.size⟩ := by
  rcases hc : q.chain with _ | ⟨n, rest⟩
  · rw [hc] at hlen; simp at hlen
  · rcases rest with _ | ⟨r0, rs⟩
    · rw [hc] at hlen; simp at hlen
    · have ht := inv_tail_ne_head h hc
      simp [q_sort_body, hc, ht]

theorem q_sort_body_chain'_perm (q : queue_t) (h : inv q) :
    List.Chain' node_le (q_sort_body q).chain ∧
      (q_sort_body q).chain.Perm q.chain := by
  rcases Nat.lt_or_ge q.chain.length 2 with hlen | hlen
  · rw [q_sort_body_of_small h (by omega)]
    refine ⟨?_, List.Perm.refl _⟩
    rcases hc : q.chain with _ | ⟨n, rest⟩
    · simp
    · have : rest = [] := by rw [hc] at hlen; simpa using Nat.lt_of_add_lt_add_right hlen
      subst this
      simp
  · rw [q_sort_body_of_big h hlen]
    exact ⟨merge_sort_chain' _, merge_sort_perm _⟩

theorem inv_q_sort_body (q : queue_t) (h : inv q) : inv (q_sort_body q) := by
  rcases Nat.lt_or_ge q.chain.length 2 with hlen | hlen
  · rw [q_sort_body_of_small h (by omega)]; exact h
  · rw [q_sort_body_of_big h hlen]
    refine ⟨?_, rfl, ?_⟩
    · rw [(merge_sort_perm q.chain).length_eq]
      exact h.1
    · exact ((merge_sort_perm q.chain).map list_ele_t.addr).nodup_iff.mpr h.2.2

theorem values_q_sort_body (q : queue_t) (h : inv q) (hv : values_c_str q) :
    values_c_str (q_sort_body q) :=
  fun n hn => hv n ((q_sort_body_chain'_perm q h).2.subset hn)

theorem q_sort_body_idem (q : queue_t) (h : inv q) (hv : values_c_str q) :
    q_sort_body (q_sort_body q) = q_sort_body q := by
  rcases Nat.lt_or_ge q.chain.length 2 with hlen | hlen
  · rw [q_sort_body_of_small h (by omega), q_sort_body_of_small h (by omega)]
  · have hq1inv : inv (q_sort_body q) := inv_q_sort_body q h
    have hq1v : values_c_str (q_sort_body q) := values_q_sort_body q h hv
    have hlen1 : 2 ≤ (q_sort_body q).chain.length := by
      rw [(q_sort_body_chain'_perm q h).2.length_eq]
      exact hlen
    rw [q_sort_body_of_big hq1inv hlen1]
    have hpw : (q_sort_body q).chain.Pairwise node_le :=
      chain'_pairwise _ hq1v (q_sort_body_chain'_perm q h).1
    rw [merge_sort_eq_self _ hpw, ← hq1inv.2.1]

theorem reverse_loop_eq : ∀ l acc : List list_ele_t,
    reverse_loop l acc = l.reverse ++ acc
  | [], _ => by simp [reverse_loop]
  | c :: rest, acc => by
    simp [reverse_loop, reverse_loop_eq rest (c :: acc)]

theorem q_reverse_body_chain (q : queue_t) :
    (q_reverse_body q).chain = q.chain.reverse := by
  rcases hc : q.chain with _ | ⟨n, rest⟩ <;>
    simp [q_reverse_body, hc, reverse_loop_eq]

theorem q_reverse_body_size (q : queue_t) : (q_reverse_body q).size = q.size := by
  rcases hc : q.chain with _ | ⟨n, rest⟩ <;> simp [q_reverse_body, hc]

theorem q_reverse_body_tail {q : queue_t} (hne : q.chain ≠ []) :
    (q_reverse_body q).tail = q.chain.head?.map list_ele_t.addr := by
  rcases hc : q.chain with _ | ⟨n, rest⟩
  · exact absurd hc hne
  · simp [q_reverse_body, hc]

theorem inv_q_reverse_body (q : queue_t) (h : inv q) : inv (q_reverse_body q) := by
  rcases hc : q.chain with _ | ⟨n, rest⟩
  · have : q_reverse_body q = q := by simp [q_reverse_body, hc]
    rw [this]; exact h
  · refine ⟨?_, ?_, ?_⟩
    · rw [q_reverse_body_chain, q_reverse_body_size, List.length_reverse]
      exact h.1
    · rw [q_reverse_body_chain, q_reverse_body_tail (by rw [hc]; simp),
        List.getLast?_reverse]
    · rw [q_reverse_body_chain, List.map_reverse, List.nodup_reverse]
      exact h.2.2

theorem inv_insert_head {q : queue_t} (h : inv q) {node : list_ele_t}
    (hfresh : node.addr ∉ q.chain.map list_ele_t.addr) :
    inv ⟨node :: q.chain,
      if q.tail = none then some node.addr else q.tail, q.size + 1⟩ := by
  refine ⟨?_, ?_, ?_⟩
  · simp only [List.length_cons]
    rw [h.1]
    push_cast
    ring
  · rcases hc : q.chain with _ | ⟨c, cs⟩
    · have ht : q.tail = none := by rw [h.2.1, hc]; rfl
      simp [ht]
    · have ht : q.tail = ((c :: cs).getLast?).map list_ele_t.addr := by
        rw [h.2.1, hc]
      have hsome : (c :: cs).getLast? = some ((c :: cs).getLast (by simp)) :=
        List.getLast?_eq_getLast _ _
      have hne : ¬q.tail = none := by rw [ht, hsome]; simp
      rw [if_neg hne, ht, List.getLast?_cons_cons]
  · simp only [List.map_cons, List.nodup_cons]
    exact ⟨hfresh, h.2.2⟩

theorem inv_insert_tail {q : queue_t} (h : inv q) {node : list_ele_t}
    (hfresh : node.addr ∉ q.chain.map list_ele_t.addr) :
    inv ⟨if q.chain.isEmpty then [node] else q.chain ++ [node],
      some node.addr, q.size + 1⟩ := by
  rcases hc : q.chain with _ | ⟨c, cs⟩
  · have h1 : q.size = 0 := by
      have := h.1
      rw [hc] at this
      simpa using this
    refine ⟨?_, ?_, ?_⟩ <;> simp [h1]
  · rw [hc] at hfresh
    have h1 := h.1
    have h22 := h.2.2
    rw [hc] at h1 h22
    have hnd : (List.map list_ele_t.addr ((c :: cs) ++ [node])).Nodup := by
      rw [List.map_append, List.nodup_append]
      refine ⟨h22, by simp, ?_⟩
      intro a ha hb
      simp only [List.map_cons, List.map_nil, List.mem_singleton] at hb
      exact hfresh (hb ▸ ha)
    refine ⟨?_, ?_, ?_⟩
    · simp [h1]
    · simp only [List.isEmpty_cons, Bool.false_eq_true, if_false]
      rw [List.getLast?_concat]
      rfl
    · simpa using hnd

theorem inv_remove_head {q : queue_t} (h : inv q) {n : list_ele_t}
    {rest : List list_ele_t} (hc : q.chain = n :: rest) :
    inv ⟨rest, if q.tail = some n.addr then none else q.tail, q.size - 1⟩ ∧
      (rest = [] → (if q.tail = some n.addr then none else q.tail) = none) ∧
      (rest ≠ [] → (if q.tail = some n.addr then none else q.tail) = q.tail) := by
  rcases rest with _ | ⟨r0, rs⟩
  · have ht : q.tail = some n.addr := by rw [h.2.1, hc]; rfl
    have hs : q.size = 1 := by rw [h.1, hc]; rfl
    refine ⟨⟨?_, ?_, ?_⟩, fun _ => ?_, fun hne => absurd rfl hne⟩ <;>
      simp [ht, hs]
  · have ht := inv_tail_ne_head h hc
    have hnd := h.2.2
    rw [hc, List.map_cons, List.nodup_cons] at hnd
    refine ⟨⟨?_, ?_, ?_⟩, fun heq => by exact absurd heq (by simp), fun _ => ?_⟩
    · rw [if_neg ht]  -- no effect on size goal; kept for uniform shape
      rw [h.1, hc]
      push_cast
      simp
    · rw [if_neg ht, h.2.1, hc, List.getLast?_cons_cons]
    · exact hnd.2
    · rw [if_neg ht]

theorem bufsize_minus_one_of_pos {b : Nat} (h1 : 1 ≤ b) (h2 : b ≤ size_t_mod) :
    bufsize_minus_one b = b - 1 := by
  unfold bufsize_minus_one size_t_mod at *
  omega

theorem strncpy_bytes_length (src : List Nat) (n : Nat) :
    (strncpy_bytes src n).length = n := by
  unfold strncpy_bytes
  rw [List.length_append, List.length_take, List.length_replicate]
  omega

theorem copy_out_length (v : List Nat) (b : Nat) :
    (copy_out v b).length = bufsize_minus_one b + 1 := by
  unfold copy_out
  rw [List.length_append, strncpy_bytes_length]
  rfl

theorem takeWhile_append_of_all {p : Nat → Bool} :
    ∀ l1 l2 : List Nat, (∀ b ∈ l1, p b = true) →
      (l1 ++ l2).takeWhile p = l1 ++ l2.takeWhile p
  | [], l2, _ => by simp
  | a :: l1, l2, h => by
    have ha := h a (List.mem_cons_self a l1)
    simp only [List.cons_append, List.takeWhile_cons, ha, if_true]
    rw [takeWhile_append_of_all l1 l2 (fun b hb => h b (List.mem_cons_of_mem _ hb))]

theorem copy_out_c_str_content {v : List Nat} (hv : c_str v) {b : Nat}
    (h1 : 1 ≤ b) (h2 : b ≤ size_t_mod) :
    (copy_out v b).takeWhile (fun x => x != 0) = v.take (b - 1) := by
  unfold copy_out strncpy_bytes
  rw [bufsize_minus_one_of_pos h1 h2, List.append_assoc,
    takeWhile_append_of_all _ _ (fun x hx => by
      have := hv x (List.take_subset _ _ hx)
      simpa using this)]
  have hrest : (List.replicate (b - 1 - v.length) 0 ++ [0]).takeWhile
      (fun x => x != 0) = [] := by
    cases hk : b - 1 - v.length with
    | zero => simp [hk]
    | succ m => simp [hk, List.replicate_succ, List.takeWhile_cons]
  rw [hrest, List.append_nil]

theorem queue_eq_of_fields {a b : queue_t} (h1 : a.chain = b.chain)
    (h2 : a.tail = b.tail) (h3 : a.size = b.size) : a = b := by
  cases a
  cases b
  simp only [queue_t.mk.injEq]
  exact ⟨h1, h2, h3⟩

theorem q_allocate_node_eq_none (s : Option (List Nat)) (ok : Bool) (a : Nat) :
    q_allocate_node s ok a = none ↔ s = none ∨ s = some [] ∨ ok = false := by
  rcases s with _ | bytes
  · simp [q_allocate_node]
  · rcases bytes with _ | ⟨x, xs⟩
    · simp [q_allocate_node]
    · cases ok <;> simp [q_allocate_node]

theorem q_allocate_node_addr {s : Option (List Nat)} {ok : Bool} {a : Nat}
    {node : list_ele_t} (h : q_allocate_node s ok a = some node) :
    node.addr = a := by
  rcases s with _ | bytes
  · simp [q_allocate_node] at h
  · simp only [q_allocate_node] at h
    split at h
    · exact absurd h (by simp)
    · split at h
      · cases Option.some.inj h
        rfl
      · exact absurd h (by simp)

/-- C1: for every well-formed queue, `q_sort` reorders the chain so that
traversal from head yields the payload strings in non-decreasing order under
case-insensitive lexicographic comparison (`strcasecmp < 1` between every
adjacent pair), and the multiset of payload strings after sorting equals the
multiset before: nothing is lost, duplicated or changed. -/
theorem q_sort_sorted_perm (q : queue_t) (h : inv q) :
    q_sort (some q) = some (q_sort_body q) ∧
    List.Chain' node_le (q_sort_body q).chain ∧
    ((q_sort_body q).chain.map list_ele_t.value).Perm
      (q.chain.map list_ele_t.value) :=
  ⟨rfl, (q_sort_body_chain'_perm q h).1, (q_sort_body_chain'_perm q h).2.map _⟩

/-- C6: on a non-empty queue `q_reverse` makes the traversal order from head
exactly the reverse of the pre-call order, sets the tail pointer to the old
head node and the head to the old last node, and keeps `size`; the chain
after the call consists of exactly the same node objects (same addresses,
same untouched payloads), so nothing is allocated, freed or copied; on a
NULL or empty queue it is a no-op. -/
theorem q_reverse_spec (q : queue_t) :
    q_reverse none = none ∧
    (q.chain = [] → q_reverse_body q = q) ∧
    (q_reverse_body q).chain = q.chain.reverse ∧
    (q_reverse_body q).size = q.size ∧
    (q.chain ≠ [] →
      (q_reverse_body q).tail = q.chain.head?.map list_ele_t.addr ∧
      (q_reverse_body q).chain.head? = q.chain.getLast?) :=
  ⟨rfl, fun hc => by simp [q_reverse_body, hc], q_reverse_body_chain q,
    q_reverse_body_size q, fun hne =>
      ⟨q_reverse_body_tail hne, by
        rw [q_reverse_body_chain]
        exact List.head?_reverse _⟩⟩

/-- C7: `q_reverse` is an involution: on any non-empty queue whose tail
pointer is well-formed (it holds the last reachable node, as every queue
reachable through the API does), reversing twice restores the original
queue state — chain, head, tail and size. -/
theorem q_reverse_involutive (q : queue_t) (hne : q.chain ≠ [])
    (htail : q.tail = (q.chain.getLast?).map list_ele_t.addr) :
    q_reverse_body (q_reverse_body q) = q := by
  have hne1 : (q_reverse_body q).chain ≠ [] := by
    rw [q_reverse_body_chain]
    simpa using hne
  refine queue_eq_of_fields ?_ ?_ ?_
  · rw [q_reverse_body_chain, q_reverse_body_chain, List.reverse_reverse]
  · rw [q_reverse_body_tail hne1, q_reverse_body_chain, List.head?_reverse,
      htail]
  · rw [q_reverse_body_size, q_reverse_body_size]

/-- C8: `q_sort` is idempotent: sorting a well-formed queue of C strings
twice gives the same queue state as sorting it once (sorting an
already-sorted queue changes nothing). -/
theorem q_sort_idempotent (q : queue_t) (h : inv q) (hv : values_c_str q) :
    q_sort (q_sort (some q)) = q_sort (some q) ∧
    q_sort_body (q_sort_body q) = q_sort_body q := by
  have hbody := q_sort_body_idem q h hv
  exact ⟨by simp [q_sort, hbody], hbody⟩

/-- C3: the sort is stable: if two nodes of a well-formed queue of C strings
have payloads that compare equal under `strcasecmp` and one precedes the
other in the chain before sorting (the two-node list is a sublist of the
chain), it still precedes it after sorting — the merge takes the left
half's front node on a tie, so equal elements keep their relative order. -/
theorem q_sort_stable (q : queue_t) (h : inv q) (hv : values_c_str q)
    (x y : list_ele_t) (hxy : strcasecmp x.value y.value = 0)
    (hsub : List.Sublist [x, y] q.chain) :
    List.Sublist [x, y] (q_sort_body q).chain := by
  rcases Nat.lt_or_ge q.chain.length 2 with hlen | hlen
  · rw [q_sort_body_of_small h (by omega)]
    exact hsub
  · rw [q_sort_body_of_big h hlen]
    have hxmem : x ∈ q.chain := hsub.subset (by simp)
    have hKc : c_str x.value := hv x hxmem
    have hfx : same_key x.value x = true := by
      simp [same_key, strcasecmp_self]
    have hfy : same_key x.value y = true := by
      have : strcasecmp y.value x.value = 0 := by
        rw [strcasecmp_antisymm, hxy]
        rfl
      simp [same_key, this]
    have h1 : [x, y].filter (same_key x.value) = [x, y] := by
      simp [List.filter, hfx, hfy]
    have h2 : List.Sublist [x, y] (q.chain.filter (same_key x.value)) :=
      h1 ▸ hsub.filter (same_key x.value)
    rw [← merge_sort_filter x.value hKc q.chain (fun n hn => hv n hn)] at h2
    exact h2.trans (List.filter_sublist _)

/-- C2: every operation preserves the structural invariants of a well-formed
queue (size counts the reachable nodes, the tail pointer holds the last
reachable node — hence head, tail and size agree on emptiness and the walk
from head reaches the tail node after size - 1 links — and the chain is a
simple acyclic sequence of distinct nodes); for the insertions the address
of the freshly malloc'd node is not an address already in the chain. -/
theorem queue_ops_preserve_inv (q : queue_t) (h : inv q) (s : Option (List Nat))
    (alloc_ok : Bool) (addr : Nat) (hfresh : addr ∉ q.chain.map list_ele_t.addr)
    (sp : Bool) (bufsize : Nat) :
    inv_opt (q_insert_head (some q) s alloc_ok addr).2 ∧
    inv_opt (q_insert_tail (some q) s alloc_ok addr).2 ∧
    inv_opt (q_remove_head (some q) sp bufsize).2.1 ∧
    inv (q_reverse_body q) ∧
    inv (q_sort_body q) ∧
    (q.size = 0 ↔ q.chain = []) ∧
    (q.tail = none ↔ q.chain = []) := by
  refine ⟨?_, ?_, ?_, inv_q_reverse_body q h, inv_q_sort_body q h, ?_, ?_⟩
  · rcases han : q_allocate_node s alloc_ok addr with _ | node
    · simpa [q_insert_head, han, inv_opt] using h
    · have haddr : node.addr = addr := q_allocate_node_addr han
      simpa [q_insert_head, han, inv_opt] using
        inv_insert_head h (haddr ▸ hfresh)
  · rcases han : q_allocate_node s alloc_ok addr with _ | node
    · simpa [q_insert_tail, han, inv_opt] using h
    · have haddr : node.addr = addr := q_allocate_node_addr han
      simpa [q_insert_tail, han, inv_opt] using
        inv_insert_tail h (haddr ▸ hfresh)
  · rcases hc : q.chain with _ | ⟨n, rest⟩
    · simpa [q_remove_head, hc, inv_opt] using h
    · simpa [q_remove_head, hc, inv_opt] using (inv_remove_head h hc).1
  · rw [h.1]
    rcases hc : q.chain with _ | ⟨n, rest⟩
    · simp
    · simp only [hc, List.length_cons]
      constructor
      · intro habs
        exfalso
        omega
      · intro habs
        exact absurd habs (by simp)
  · rw [h.2.1]
    rcases hc : q.chain with _ | ⟨n, rest⟩
    · simp
    · have : (n :: rest).getLast? = some ((n :: rest).getLast (by simp)) :=
        List.getLast?_eq_getLast _ _
      simp [this]

/-- C4: `q_insert_head` and `q_insert_tail` return false and leave the queue
completely unchanged exactly when the queue pointer is NULL, the string is
NULL or empty, or allocation fails; on success they return true and `size`
grows by exactly 1. -/
theorem q_insert_spec (q : Option queue_t) (s : Option (List Nat))
    (alloc_ok : Bool) (addr : Nat) :
    ((q_insert_head q s alloc_ok addr).1 = false ↔
      q = none ∨ s = none ∨ s = some [] ∨ alloc_ok = false) ∧
    ((q_insert_head q s alloc_ok addr).1 = false →
      (q_insert_head q s alloc_ok addr).2 = q) ∧
    (∀ qq, q = some qq → (q_insert_head q s alloc_ok addr).1 = true →
      ∃ qq', (q_insert_head q s alloc_ok addr).2 = some qq' ∧
        qq'.size = qq.size + 1) ∧
    ((q_insert_tail q s alloc_ok addr).1 = false ↔
      q = none ∨ s = none ∨ s = some [] ∨ alloc_ok = false) ∧
    ((q_insert_tail q s alloc_ok addr).1 = false →
      (q_insert_tail q s alloc_ok addr).2 = q) ∧
    (∀ qq, q = some qq → (q_insert_tail q s alloc_ok addr).1 = true →
      ∃ qq', (q_insert_tail q s alloc_ok addr).2 = some qq' ∧
        qq'.size = qq.size + 1) := by
  rcases q with _ | qq
  · simp [q_insert_head, q_insert_tail]
  · rcases han : q_allocate_node s alloc_ok addr with _ | node
    · have := (q_allocate_node_eq_none s alloc_ok addr).mp han
      simp [q_insert_head, q_insert_tail, han, this]
    · have hnone : ¬(s = none ∨ s = some [] ∨ alloc_ok = false) := by
        intro habs
        rw [(q_allocate_node_eq_none s alloc_ok addr).mpr habs] at han
        exact absurd han (by simp)
      simp [q_insert_head, q_insert_tail, han, hnone]

/-- C5: `q_remove_head` returns false and changes nothing exactly when the
queue pointer is NULL or the queue is empty; otherwise it returns true,
unlinks the head node so that the former second node becomes the head,
decrements `size` by exactly 1 and, on a well-formed queue, resets the tail
pointer to NULL exactly when the chain becomes empty. -/
theorem q_remove_head_spec (q : Option queue_t) (sp : Bool) (bufsize : Nat) :
    ((q_remove_head q sp bufsize).1 = false ↔
      q = none ∨ ∃ qq, q = some qq ∧ qq.chain = []) ∧
    ((q_remove_head q sp bufsize).1 = false →
      (q_remove_head q sp bufsize).2.1 = q) ∧
    (∀ qq n rest, q = some qq → qq.chain = n :: rest → inv qq →
      (q_remove_head q sp bufsize).1 = true ∧
      ∃ qq', (q_remove_head q sp bufsize).2.1 = some qq' ∧
        qq'.chain = rest ∧ qq'.size = qq.size - 1 ∧ inv qq' ∧
        (rest = [] → qq'.tail = none) ∧
        (rest ≠ [] → qq'.tail = qq.tail)) := by
  rcases q with _ | qq
  · simp [q_remove_head]
  · rcases hc : qq.chain with _ | ⟨n, rest⟩
    · refine ⟨by simp [q_remove_head, hc], by simp [q_remove_head, hc], ?_⟩
      intro qq' n rest heq hchain _
      rw [Option.some.inj heq] at hc
      rw [hc] at hchain
      exact absurd hchain (by simp)
    · refine ⟨by simp [q_remove_head, hc], by simp [q_remove_head, hc], ?_⟩
      intro qq2 n2 rest2 heq hchain hinv
      cases Option.some.inj heq
      rw [hc] at hchain
      cases hchain
      have hrem := inv_remove_head hinv hc
      refine ⟨by simp [q_remove_head, hc], ⟨_, by simp [q_remove_head, hc], rfl,
        rfl, hrem.1, hrem.2.1, hrem.2.2⟩⟩

/-- C9: for every accepted string and an otherwise-empty queue, a successful
`q_insert_head` followed by `q_remove_head` with a supplied buffer of
capacity `cap ≥ 1` stores in the buffer exactly the inserted string
truncated to at most `cap - 1` bytes followed by a NUL terminator; the
truncation is silent — the removal still returns true when the string is
longer than `cap - 1` bytes, no error is reported. -/
theorem insert_then_remove_roundtrip (s : List Nat) (hs : s ≠ []) (hcs : c_str s)
    (addr : Nat) (cap : Nat) (h1 : 1 ≤ cap) (h2 : cap ≤ size_t_mod) :
    q_insert_head (some ⟨[], none, 0⟩) (some s) true addr =
      (true, some ⟨[⟨addr, s⟩], some addr, 1⟩) ∧
    q_remove_head (some ⟨[⟨addr, s⟩], some addr, 1⟩) true cap =
      (true, some ⟨[], none, 0⟩, some (copy_out s cap)) ∧
    copy_out s cap =
      s.take (cap - 1) ++ List.replicate (cap - 1 - s.length) 0 ++ [0] ∧
    (copy_out s cap).takeWhile (fun x => x != 0) = s.take (cap - 1) := by
  refine ⟨?_, ?_, ?_, copy_out_c_str_content hcs h1 h2⟩
  · have hlen : ¬s.length = 0 := by simpa using hs
    simp [q_insert_head, q_allocate_node, hlen]
  · simp [q_remove_head]
  · unfold copy_out strncpy_bytes
    rw [bufsize_minus_one_of_pos h1 h2]

/-- C10: the copy-out of `q_remove_head` is in bounds only when the supplied
buffer has capacity at least 1: the `size_t` expression `bufsize - 1` wraps
to `2 ^ 64 - 1` at `bufsize = 0`, so the bytes written (the `strncpy` region
plus the terminator store) number `2 ^ 64` — far beyond a zero-capacity
buffer — while for `1 ≤ bufsize` exactly `bufsize` bytes are written, the
terminator landing at index `bufsize - 1` inside the buffer. -/
theorem remove_head_bufsize_zero_wraps (v : List Nat) :
    bufsize_minus_one 0 = 2 ^ 64 - 1 ∧
    (copy_out v 0).length = 2 ^ 64 ∧
    ¬(copy_out v 0).length ≤ 0 ∧
    (∀ b : Nat, 1 ≤ b → b ≤ 2 ^ 64 →
      bufsize_minus_one b = b - 1 ∧ (copy_out v b).length = b) ∧
    (∀ qq : queue_t, ∀ n rest, qq.chain = n :: rest →
      (q_remove_head (some qq) true 0).2.2 = some (copy_out n.value 0)) := by
  have h0 : bufsize_minus_one 0 = 2 ^ 64 - 1 := by
    unfold bufsize_minus_one size_t_mod
    omega
  refine ⟨h0, ?_, ?_, ?_, ?_⟩
  · rw [copy_out_length, h0]
    omega
  · rw [copy_out_length, h0]
    omega
  · intro b hb1 hb2
    have hb : bufsize_minus_one b = b - 1 :=
      bufsize_minus_one_of_pos hb1 (by unfold size_t_mod; omega)
    refine ⟨hb, ?_⟩
    rw [copy_out_length, hb]
    omega
  · intro qq n rest hc
    simp [q_remove_head, hc]

/-- Two-node fixture for the witnesses: payloads are the strings B and a
(so the queue is unsorted case-insensitively), tail points at the last
node. -/
def sample_q2 : queue_t := ⟨[⟨0, [66]⟩, ⟨1, [97]⟩], some 1, 2⟩

/-- Three-node fixture for the stability witness: payloads B, a, b — the
first and last compare equal case-insensitively. -/
def sample_q3 : queue_t := ⟨[⟨0, [66]⟩, ⟨1, [97]⟩, ⟨2, [98]⟩], some 2, 3⟩

/-- Witness for C1 at the concrete queue `sample_q2`. -/
theorem q_sort_sorted_perm_witness :
    q_sort (some sample_q2) = some (q_sort_body sample_q2) ∧
    List.Chain' node_le (q_sort_body sample_q2).chain ∧
    ((q_sort_body sample_q2).chain.map list_ele_t.value).Perm
      (sample_q2.chain.map list_ele_t.value) :=
  q_sort_sorted_perm sample_q2 (by decide)

/-- Witness for C2 at the concrete queue `sample_q2`, inserting the string c
at the fresh address 5. -/
theorem queue_ops_preserve_inv_witness :
    inv_opt (q_insert_head (some sample_q2) (some [99]) true 5).2 ∧
    inv (q_reverse_body sample_q2) ∧ inv (q_sort_body sample_q2) :=
  ⟨(queue_ops_preserve_inv sample_q2 (by decide) (some [99]) true 5 (by decide)
      true 8).1,
   (queue_ops_preserve_inv sample_q2 (by decide) (some [99]) true 5 (by decide)
      true 8).2.2.2.1,
   (queue_ops_preserve_inv sample_q2 (by decide) (some [99]) true 5 (by decide)
      true 8).2.2.2.2.1⟩

/-- Witness for C3 at the concrete queue `sample_q3`: the nodes holding B
and b compare equal and keep their order through the sort. -/
theorem q_sort_stable_witness :
    List.Sublist [(⟨0, [66]⟩ : list_ele_t), ⟨2, [98]⟩] (q_sort_body sample_q3).chain :=
  q_sort_stable sample_q3 (by decide) (by decide) ⟨0, [66]⟩ ⟨2, [98]⟩ (by decide)
    (by decide)

/-- Witness for C4: insertion into a NULL queue fails, insertion of the
string c into `sample_q2` succeeds and grows the size by one. -/
theorem q_insert_spec_witness :
    (q_insert_head none (some [97]) true 0).1 = false ∧
    (∃ qq', (q_insert_head (some sample_q2) (some [99]) true 5).2 = some qq' ∧
      qq'.size = sample_q2.size + 1) :=
  ⟨(q_insert_spec none (some [97]) true 0).1.mpr (Or.inl rfl),
   (q_insert_spec (some sample_q2) (some [99]) true 5).2.2.1 sample_q2 rfl
     (by decide)⟩

/-- Witness for C5 at the concrete queue `sample_q2` with a buffer of
capacity 8. -/
theorem q_remove_head_spec_witness :
    (q_remove_head (some sample_q2) true 8).1 = true ∧
    ∃ qq', (q_remove_head (some sample_q2) true 8).2.1 = some qq' ∧
      qq'.chain = [⟨1, [97]⟩] ∧ qq'.size = sample_q2.size - 1 ∧ inv qq' ∧
      ([(⟨1, [97]⟩ : list_ele_t)] = [] → qq'.tail = none) ∧
      ([(⟨1, [97]⟩ : list_ele_t)] ≠ [] → qq'.tail = sample_q2.tail) :=
  (q_remove_head_spec (some sample_q2) true 8).2.2 sample_q2 ⟨0, [66]⟩
    [⟨1, [97]⟩] rfl (by decide) (by decide)

/-- Witness for C6 at the concrete queue `sample_q2`. -/
theorem q_reverse_spec_witness :
    (q_reverse_body sample_q2).chain = sample_q2.chain.reverse ∧
    (q_reverse_body sample_q2).tail = sample_q2.chain.head?.map list_ele_t.addr :=
  ⟨(q_reverse_spec sample_q2).2.2.1,
   ((q_reverse_spec sample_q2).2.2.2.2 (by decide)).1⟩

/-- Witness for C7 at the concrete queue `sample_q2`. -/
theorem q_reverse_involutive_witness :
    q_reverse_body (q_reverse_body sample_q2) = sample_q2 :=
  q_reverse_involutive sample_q2 (by decide) (by decide)

/-- Witness for C8 at the concrete queue `sample_q2`. -/
theorem q_sort_idempotent_witness :
    q_sort (q_sort (some sample_q2)) = q_sort (some sample_q2) :=
  (q_sort_idempotent sample_q2 (by decide) (by decide)).1

/-- Witness for C9: the string ab inserted and removed through a buffer of
capacity 2 comes back truncated to its first byte. -/
theorem insert_then_remove_roundtrip_witness :
    (copy_out [97, 98] 2).takeWhile (fun x => x != 0) = [97, 98].take 1 :=
  (insert_then_remove_roundtrip [97, 98] (by decide) (by decide) 0 2 (by decide)
    (by norm_num [size_t_mod])).2.2.2

/-- Witness for C10: a buffer of capacity 8 is written in bounds — exactly 8
bytes, terminator at index 7. -/
theorem remove_head_bufsize_zero_wraps_witness :
    bufsize_minus_one 8 = 8 - 1 ∧ (copy_out [97] 8).length = 8 :=
  (remove_head_bufsize_zero_wraps [97]).2.2.2.1 8 (by decide) (by norm_num)
